import Mathlib

/-!
A shallow embedding, over `ℚ`, of the cursor-capture / auto-zoom / playback
core of the openscreen repository, together with theorems checking the
specification claims against it.  JavaScript numbers are modelled as
rationals.  The only JavaScript operation with no rational counterpart,
`Math.sqrt`, occurs solely in comparisons of the form
`Math.sqrt(d2) >= m` with `d2 >= 0`; such a comparison is embedded as
`m <= 0 or m^2 <= d2`, which has the same truth value.
-/

namespace Openscreen

/-- Tag of a captured cursor event (the `'move' | 'click' | 'scroll'` union
in `cursorUtils.ts`). -/
inductive CursorEventType where
  | move
  | click
  | scroll
deriving DecidableEq

/-- `CursorEvent` as declared in `cursorUtils.ts` / `mouseTracker.ts`. -/
structure CursorEvent where
  type : CursorEventType
  timestamp : ℚ
  x : ℚ := 0
  y : ℚ := 0
  normalizedX : ℚ := 0
  normalizedY : ℚ := 0
  button : Option ℚ := none
  scrollDelta : Option ℚ := none
deriving DecidableEq

/-- `ZoomFocus` from `types.ts`. -/
structure ZoomFocus where
  cx : ℚ
  cy : ℚ
deriving DecidableEq

/-- `ZoomFocusKeyframe` from `types.ts`. -/
structure ZoomFocusKeyframe where
  timeOffsetMs : ℚ
  focus : ZoomFocus
deriving DecidableEq

/-- `ZoomRegion` from `types.ts`.  The `depth` enum is kept as a bare
natural number: the depth-to-scale table plays no role in the claims
settled below. -/
structure ZoomRegion where
  id : String
  startMs : ℚ
  endMs : ℚ
  depth : ℕ
  focus : ZoomFocus
  focusKeyframes : Option (List ZoomFocusKeyframe) := none
deriving DecidableEq

/-- `Math.max` on rationals, written with an explicit comparison so that
it evaluates by kernel reduction (it agrees with the lattice `max`, see
`mathMax_eq`). -/
def mathMax (a b : ℚ) : ℚ := if a ≤ b then b else a

/-- `Math.min` on rationals, written with an explicit comparison so that
it evaluates by kernel reduction (it agrees with the lattice `min`, see
`mathMin_eq`). -/
def mathMin (a b : ℚ) : ℚ := if a ≤ b then a else b

/-- `Math.abs` on rationals, written with an explicit comparison so that
it evaluates by kernel reduction (it agrees with `|·|`, see
`mathAbs_eq`). -/
def mathAbs (a : ℚ) : ℚ := if a ≤ 0 then -a else a

/-- The explicit `Math.max` agrees with the lattice `max`. -/
theorem mathMax_eq (a b : ℚ) : mathMax a b = max a b := by
  simp only [mathMax]
  split
  · exact (max_eq_right (by assumption)).symm
  · exact (max_eq_left (le_of_not_le (by assumption))).symm

/-- The explicit `Math.min` agrees with the lattice `min`. -/
theorem mathMin_eq (a b : ℚ) : mathMin a b = min a b := by
  simp only [mathMin]
  split
  · exact (min_eq_left (by assumption)).symm
  · exact (min_eq_right (le_of_not_le (by assumption))).symm

/-- The explicit `Math.abs` agrees with `|·|`. -/
theorem mathAbs_eq (a : ℚ) : mathAbs a = |a| := by
  simp only [mathAbs]
  split
  · exact (abs_of_nonpos (by assumption)).symm
  · exact (abs_of_pos (lt_of_not_le (by assumption))).symm

/-- `clamp01` from `videoPlayback/mathUtils.ts`:
`Math.max(0, Math.min(1, value))`. -/
def clamp01 (value : ℚ) : ℚ :=
  mathMax 0 (mathMin 1 value)

/-- `smoothStep` from `videoPlayback/mathUtils.ts`. -/
def smoothStep (t : ℚ) : ℚ :=
  let clamped := clamp01 t
  clamped * clamped * (3 - 2 * clamped)

/-- `smootherStep` (the Ken Perlin quintic) from
`videoPlayback/mathUtils.ts`. -/
def smootherStep (t : ℚ) : ℚ :=
  let clamped := clamp01 t
  clamped * clamped * clamped * (clamped * (clamped * 6 - 15) + 10)

/-- `catmullRomInterpolate` from `videoPlayback/mathUtils.ts`. -/
def catmullRomInterpolate (p0 p1 p2 p3 t tension : ℚ) : ℚ :=
  let t2 := t * t
  let t3 := t2 * t
  let m1 := tension * (p2 - p0)
  let m2 := tension * (p3 - p1)
  (2 * t3 - 3 * t2 + 1) * p1 +
    (t3 - 2 * t2 + t) * m1 +
    (-2 * t3 + 3 * t2) * p2 +
    (t3 - t2) * m2

namespace PlaybackConstants

/-- `DEFAULT_FOCUS` from `videoPlayback/constants.ts`. -/
def DEFAULT_FOCUS : ZoomFocus := ⟨1/2, 1/2⟩

/-- `TRANSITION_WINDOW_MS = 400` from `videoPlayback/constants.ts`. -/
def TRANSITION_WINDOW_MS : ℚ := 400

/-- `SMOOTHING_FACTOR = 0.08` from `videoPlayback/constants.ts`. -/
def SMOOTHING_FACTOR : ℚ := 8/100

/-- `MIN_DELTA = 0.00005` from `videoPlayback/constants.ts`. -/
def MIN_DELTA : ℚ := 5/100000

end PlaybackConstants

/-- `computeRegionStrength` from the `videoPlayback` zoom-utility module,
which uses `TRANSITION_WINDOW_MS = 400` from `videoPlayback/constants.ts`
and the quintic `smootherStep`. -/
def computeRegionStrength (region : ZoomRegion) (timeMs : ℚ) : ℚ :=
  let leadInStart := region.startMs - PlaybackConstants.TRANSITION_WINDOW_MS
  let leadOutEnd := region.endMs + PlaybackConstants.TRANSITION_WINDOW_MS
  if timeMs < leadInStart ∨ leadOutEnd < timeMs then 0
  else
    let fadeIn := smootherStep ((timeMs - leadInStart) / PlaybackConstants.TRANSITION_WINDOW_MS)
    let fadeOut := smootherStep ((leadOutEnd - timeMs) / PlaybackConstants.TRANSITION_WINDOW_MS)
    mathMin fadeIn fadeOut

/-- Overlap test used inside `mergeZoomRegions` (`cursorUtils.ts`): an auto
region is dropped when `!(auto.endMs <= manual.startMs || auto.startMs >=
manual.endMs)` holds for some manual region. -/
def overlapsManualB (manualRegions : List ZoomRegion) (autoRegion : ZoomRegion) : Bool :=
  manualRegions.any fun manual =>
    ! (decide (autoRegion.endMs ≤ manual.startMs) || decide (manual.endMs ≤ autoRegion.startMs))

/-- `mergeZoomRegions` from `cursorUtils.ts`: keep all manual regions, add
the auto regions that overlap no manual region, then sort by `startMs`
ascending (JavaScript `Array.prototype.sort` is stable; the embedding uses
the stable `List.mergeSort`). -/
def mergeZoomRegions (autoRegions manualRegions : List ZoomRegion) : List ZoomRegion :=
  let merged := manualRegions ++ autoRegions.filter fun a => ! overlapsManualB manualRegions a
  merged.mergeSort fun a b => decide (a.startMs ≤ b.startMs)

namespace MouseTracker

/-- The display bounds rectangle resolved by `getDisplayBoundsForSource`
in `mouseTracker.ts`. -/
structure DisplayBounds where
  x : ℚ
  y : ℚ
  width : ℚ
  height : ℚ
deriving DecidableEq

/-- `normalizeCoordinates` from `mouseTracker.ts`: when bounds are
resolved, clamp the raw point into the rectangle and divide by its
extent; without bounds return `(0.5, 0.5)`. -/
def normalizeCoordinates (displayBounds : Option DisplayBounds) (x y : ℚ) : ℚ × ℚ :=
  match displayBounds with
  | none => (1/2, 1/2)
  | some b =>
    let clampedX := mathMax b.x (mathMin x (b.x + b.width))
    let clampedY := mathMax b.y (mathMin y (b.y + b.height))
    ((clampedX - b.x) / b.width, (clampedY - b.y) / b.height)

end MouseTracker

namespace CursorUtils

/-- `AutoZoomConfig` from `cursorUtils.ts`; `generateAutoZoomRegions`
receives a `Partial` overlay that it merges over the defaults, so the
embedding takes the already-merged configuration. -/
structure AutoZoomConfig where
  zoomDepth : ℕ
  zoomDurationMs : ℚ
  minIntervalMs : ℚ
  keyframeSampleIntervalMs : ℚ
  keyframeMinDistance : ℚ
deriving DecidableEq

/-- `DEFAULT_AUTO_ZOOM_CONFIG` from `cursorUtils.ts`. -/
def DEFAULT_AUTO_ZOOM_CONFIG : AutoZoomConfig :=
  { zoomDepth := 3
    zoomDurationMs := 2000
    minIntervalMs := 500
    keyframeSampleIntervalMs := 50
    keyframeMinDistance := 1/100 }

/-- Squared euclidean distance between two focus points; the source takes
`Math.sqrt` of this quantity before comparing it with a threshold. -/
def distSq (a b : ZoomFocus) : ℚ :=
  (a.cx - b.cx)^2 + (a.cy - b.cy)^2

/-- Embedding of the comparison `Math.sqrt(d2) >= m` for `d2 >= 0`:
it holds iff `m <= 0` or `m^2 <= d2`. -/
def sqrtGeB (d2 m : ℚ) : Bool :=
  if 0 < m then decide (m^2 ≤ d2) else true

/-- State of the move-sampling loop inside `generateFocusKeyframes`:
the accumulated keyframes, `lastKeyframeFocus` and `lastSampleTime`. -/
structure KeyframeScanState where
  keyframes : List ZoomFocusKeyframe
  lastKeyframeFocus : ZoomFocus
  lastSampleTime : ℚ

/-- One iteration of the move-sampling loop in `generateFocusKeyframes`. -/
def keyframeScanStep (cfg : AutoZoomConfig) (zoomStartMs : ℚ)
    (st : KeyframeScanState) (moveEvent : CursorEvent) : KeyframeScanState :=
  if moveEvent.timestamp - st.lastSampleTime < cfg.keyframeSampleIntervalMs then st
  else
    let newFocus : ZoomFocus := ⟨clamp01 moveEvent.normalizedX, clamp01 moveEvent.normalizedY⟩
    if sqrtGeB (distSq newFocus st.lastKeyframeFocus) cfg.keyframeMinDistance then
      { keyframes := st.keyframes ++ [⟨moveEvent.timestamp - zoomStartMs, newFocus⟩]
        lastKeyframeFocus := newFocus
        lastSampleTime := moveEvent.timestamp }
    else st

/-- `generateFocusKeyframes` from `cursorUtils.ts`.  The JavaScript
accesses `movesDuringZoom[movesDuringZoom.length - 1]` and
`keyframes[keyframes.length - 1]` are embedded with `List.getLastD`; both
defaults are unobservable because on that branch `movesDuringZoom` is
nonempty and `keyframes` always starts from the initial keyframe. -/
def generateFocusKeyframes (cursorEvents : List CursorEvent)
    (zoomStartMs zoomEndMs : ℚ) (initialFocus : ZoomFocus)
    (cfg : AutoZoomConfig) : List ZoomFocusKeyframe :=
  let first : ZoomFocusKeyframe := ⟨0, initialFocus⟩
  let movesDuringZoom := cursorEvents.filter fun e =>
    decide (e.type = CursorEventType.move) &&
      decide (zoomStartMs ≤ e.timestamp) && decide (e.timestamp ≤ zoomEndMs)
  if movesDuringZoom.length = 0 then [first]
  else
    let st := movesDuringZoom.foldl (keyframeScanStep cfg zoomStartMs)
      ⟨[first], initialFocus, zoomStartMs⟩
    let lastMove := movesDuringZoom.getLastD { type := CursorEventType.move, timestamp := 0 }
    let lastKeyframe := st.keyframes.getLastD first
    if 50 < lastMove.timestamp - zoomStartMs - lastKeyframe.timeOffsetMs then
      let finalFocus : ZoomFocus := ⟨clamp01 lastMove.normalizedX, clamp01 lastMove.normalizedY⟩
      if sqrtGeB (distSq finalFocus lastKeyframe.focus) (cfg.keyframeMinDistance * (1/2)) then
        st.keyframes ++ [⟨lastMove.timestamp - zoomStartMs, finalFocus⟩]
      else st.keyframes
    else st.keyframes

/-- `Math.round`, which is `⌊x + 1/2⌋` (ties rounding toward positive
infinity). -/
def jsRound (x : ℚ) : ℚ := (⌊x + 1/2⌋ : ℤ)

/-- State of the click loop inside `generateAutoZoomRegions`. -/
structure GenState where
  regions : List ZoomRegion
  idCounter : ℕ
  lastZoomEndMs : ℚ

/-- One iteration of the click loop in `generateAutoZoomRegions`. -/
def autoZoomStep (cursorEvents : List CursorEvent) (videoDurationMs : ℚ)
    (cfg : AutoZoomConfig) (st : GenState) (clickEvent : CursorEvent) : GenState :=
  if clickEvent.timestamp - st.lastZoomEndMs < cfg.minIntervalMs then st
  else
    let startMs := clickEvent.timestamp
    let endMs := mathMin (startMs + cfg.zoomDurationMs) videoDurationMs
    if endMs - startMs < 300 then st
    else
      let initialFocus : ZoomFocus := ⟨clamp01 clickEvent.normalizedX, clamp01 clickEvent.normalizedY⟩
      let focusKeyframes := generateFocusKeyframes cursorEvents startMs endMs initialFocus cfg
      let region : ZoomRegion :=
        { id := "auto-zoom-" ++ toString (st.idCounter + 1)
          startMs := jsRound startMs
          endMs := jsRound endMs
          depth := cfg.zoomDepth
          focus := initialFocus
          focusKeyframes := if 1 < focusKeyframes.length then some focusKeyframes else none }
      { regions := st.regions ++ [region]
        idCounter := st.idCounter + 1
        lastZoomEndMs := endMs }

/-- Result record of `generateAutoZoomRegions`. -/
structure AutoZoomResult where
  regions : List ZoomRegion
  nextIdCounter : ℕ
deriving DecidableEq

/-- `generateAutoZoomRegions` from `cursorUtils.ts`. -/
def generateAutoZoomRegions (cursorEvents : List CursorEvent)
    (videoDurationMs : ℚ) (existingZoomIdCounter : ℕ)
    (cfg : AutoZoomConfig) : AutoZoomResult :=
  let clickEvents := cursorEvents.filter fun e =>
    decide (e.type = CursorEventType.click) &&
      (decide (e.button = some 1) || decide (e.button = none))
  if clickEvents.length = 0 then ⟨[], existingZoomIdCounter⟩
  else
    let st := clickEvents.foldl (autoZoomStep cursorEvents videoDurationMs cfg)
      ⟨[], existingZoomIdCounter, -cfg.minIntervalMs⟩
    ⟨st.regions, st.idCounter⟩

end CursorUtils

/-- Index search loop of `interpolateFocusFromKeyframes`
(`for i = 0 .. keyframes.length - 2: if timeOffset >= kf[i].timeOffsetMs
&& timeOffset < kf[i+1].timeOffsetMs then break with i`), returning the
index at which the loop breaks, if any. -/
def findSegmentAux : List ZoomFocusKeyframe → ℚ → ℕ → Option ℕ
  | k1 :: k2 :: rest, timeOffset, i =>
    if k1.timeOffsetMs ≤ timeOffset ∧ timeOffset < k2.timeOffsetMs then some i
    else findSegmentAux (k2 :: rest) timeOffset (i + 1)
  | _, _, _ => none

/-- `interpolateFocusFromKeyframes` from the `videoPlayback` zoom-utility
module.  JavaScript array indexing is embedded with `List.getD` whose
default (`k0`, the first keyframe) is unobservable: on every reachable
path the indices are in range. -/
def interpolateFocusFromKeyframes (region : ZoomRegion) (currentTimeMs : ℚ) : ZoomFocus :=
  match region.focusKeyframes with
  | none => region.focus
  | some keyframes =>
    match keyframes with
    | [] => region.focus
    | k0 :: restKf =>
      let kfs := k0 :: restKf
      let timeOffset := currentTimeMs - region.startMs
      if timeOffset ≤ k0.timeOffsetMs then k0.focus
      else
        let lastKeyframe := kfs.getLastD k0
        if lastKeyframe.timeOffsetMs ≤ timeOffset then lastKeyframe.focus
        else
          let currentIndex := (findSegmentAux kfs timeOffset 0).getD 0
          let p1 := kfs.getD currentIndex k0
          let p2 := kfs.getD (currentIndex + 1) k0
          let p0 := if 0 < currentIndex then kfs.getD (currentIndex - 1) k0 else p1
          let p3 := if currentIndex + 2 < kfs.length then kfs.getD (currentIndex + 2) k0 else p2
          let segmentDuration := p2.timeOffsetMs - p1.timeOffsetMs
          if segmentDuration ≤ 0 then p1.focus
          else
            let t := (timeOffset - p1.timeOffsetMs) / segmentDuration
            ⟨catmullRomInterpolate p0.focus.cx p1.focus.cx p2.focus.cx p3.focus.cx t (1/2),
             catmullRomInterpolate p0.focus.cy p1.focus.cy p2.focus.cy p3.focus.cy t (1/2)⟩

namespace CursorOverlay

/-- The record returned by `getCursorPositionAtTime` in
`CursorOverlay.tsx`. -/
structure CursorPosition where
  x : ℚ
  y : ℚ
  isClick : Bool
deriving DecidableEq

/-- Scanning loop of `getCursorPositionAtTime`: walk the events keeping
the latest event at or before `timeMs` and the latest click seen within
the 300 ms tolerance, and break at the first event after `timeMs`.
Returns `(beforeEvent, afterEvent, clickEvent)`. -/
def scanEvents : List CursorEvent → ℚ → Option CursorEvent → Option CursorEvent →
    Option CursorEvent × Option CursorEvent × Option CursorEvent
  | [], _, beforeEvent, clickEvent => (beforeEvent, none, clickEvent)
  | e :: rest, timeMs, beforeEvent, clickEvent =>
    let clickEvent2 :=
      if e.type = CursorEventType.click ∧ mathAbs (e.timestamp - timeMs) < 300 then some e
      else clickEvent
    if e.timestamp ≤ timeMs then scanEvents rest timeMs (some e) clickEvent2
    else (beforeEvent, some e, clickEvent2)

/-- `getCursorPositionAtTime` from `CursorOverlay.tsx`. -/
def getCursorPositionAtTime (cursorEvents : List CursorEvent) (timeMs : ℚ) :
    Option CursorPosition :=
  if cursorEvents.length = 0 then none
  else
    match scanEvents cursorEvents timeMs none none with
    | (none, some a, c) => some ⟨a.normalizedX, a.normalizedY, c.isSome⟩
    | (some b, none, c) => some ⟨b.normalizedX, b.normalizedY, c.isSome⟩
    | (some b, some a, c) =>
      let timeDiff := a.timestamp - b.timestamp
      if timeDiff = 0 then some ⟨b.normalizedX, b.normalizedY, c.isSome⟩
      else
        let progress := (timeMs - b.timestamp) / timeDiff
        let smoothProgress := progress * progress * (3 - 2 * progress)
        some ⟨b.normalizedX + (a.normalizedX - b.normalizedX) * smoothProgress,
              b.normalizedY + (a.normalizedY - b.normalizedY) * smoothProgress,
              c.isSome⟩
    | (none, none, _) => none

end CursorOverlay

namespace VideoPlayback

/-- `SMOOTHING_FACTOR = 0.12` from `VideoPlayback.tsx`. -/
def SMOOTHING_FACTOR : ℚ := 12/100

/-- `MIN_DELTA = 0.0001` from `VideoPlayback.tsx`. -/
def MIN_DELTA : ℚ := 1/10000

/-- Scale component of one `ticker` tick in `VideoPlayback.tsx`, with the
target scale factor as a parameter (the claim holds it constant across
ticks): while the remaining delta exceeds `MIN_DELTA` close
`SMOOTHING_FACTOR` of it, otherwise snap exactly to the target. -/
def scaleTick (targetScaleFactor currentScale : ℚ) : ℚ :=
  let scaleDelta := targetScaleFactor - currentScale
  if MIN_DELTA < mathAbs scaleDelta then currentScale + scaleDelta * SMOOTHING_FACTOR
  else targetScaleFactor

end VideoPlayback

/-!
## Claim C8 (transform scale convergence)
-/

namespace VideoPlayback

/-- A tick whose current scale already equals the target leaves the scale
unchanged. -/
theorem scaleTick_fixed (target : ℚ) : scaleTick target target = target := by
  rw [scaleTick]
  norm_num [mathAbs, MIN_DELTA]

/-- Once the remaining delta is at most `MIN_DELTA`, the tick snaps the
scale exactly onto the target. -/
theorem scaleTick_snap (target current : ℚ)
    (h : mathAbs (target - current) ≤ MIN_DELTA) :
    scaleTick target current = target := by
  rw [scaleTick, if_neg (not_lt.mpr h)]

/-- Each tick multiplies the remaining delta by at most
`1 - SMOOTHING_FACTOR`. -/
theorem scaleTick_decay (target current : ℚ) :
    mathAbs (target - scaleTick target current) ≤
      (1 - SMOOTHING_FACTOR) * mathAbs (target - current) := by
  rw [scaleTick]
  split
  · rw [mathAbs_eq, mathAbs_eq]
    rw [show target - (current + (target - current) * SMOOTHING_FACTOR) =
      (1 - SMOOTHING_FACTOR) * (target - current) by ring]
    rw [abs_mul]
    rw [abs_of_nonneg (by norm_num [SMOOTHING_FACTOR])]
  · rw [sub_self, mathAbs_eq, abs_zero]
    have h0 : (0:ℚ) ≤ mathAbs (target - current) := by
      rw [mathAbs_eq]; exact abs_nonneg _
    have h1 : (0:ℚ) ≤ 1 - SMOOTHING_FACTOR := by norm_num [SMOOTHING_FACTOR]
    exact mul_nonneg h1 h0

/-- After `n` ticks the remaining delta has decayed geometrically. -/
theorem scaleTick_iterate_bound (target current : ℚ) :
    ∀ n : ℕ, mathAbs (target - (scaleTick target)^[n] current) ≤
      (1 - SMOOTHING_FACTOR)^n * mathAbs (target - current) := by
  intro n
  induction n with
  | zero => simp
  | succ n ih =>
    rw [Function.iterate_succ_apply']
    calc mathAbs (target - scaleTick target ((scaleTick target)^[n] current))
        ≤ (1 - SMOOTHING_FACTOR) * mathAbs (target - (scaleTick target)^[n] current) :=
          scaleTick_decay _ _
      _ ≤ (1 - SMOOTHING_FACTOR) * ((1 - SMOOTHING_FACTOR)^n * mathAbs (target - current)) := by
          refine mul_le_mul_of_nonneg_left ih (by norm_num [SMOOTHING_FACTOR])
      _ = (1 - SMOOTHING_FACTOR)^(n+1) * mathAbs (target - current) := by ring

end VideoPlayback

/-- Claim C8: for every target scale held constant across ticks and every
starting scale, after finitely many ticks of the transform engine's scale
smoothing the remaining delta falls to `MIN_DELTA` or below, the tick
snaps the scale exactly onto the target, and every subsequent tick leaves
it exactly equal to the target (no infinite asymptotic drift). -/
theorem c8_scaleConvergence (target current : ℚ) :
    ∃ N : ℕ, ∀ n : ℕ, N ≤ n →
      (VideoPlayback.scaleTick target)^[n] current = target := by
  have habs : (0:ℚ) ≤ mathAbs (target - current) := by
    rw [mathAbs_eq]; exact abs_nonneg _
  have hpos : (0:ℚ) < mathAbs (target - current) + 1 := by linarith
  obtain ⟨k, hk⟩ := exists_pow_lt_of_lt_one
    (x := VideoPlayback.MIN_DELTA / (mathAbs (target - current) + 1))
    (y := 1 - VideoPlayback.SMOOTHING_FACTOR)
    (div_pos (by norm_num [VideoPlayback.MIN_DELTA]) hpos)
    (by norm_num [VideoPlayback.SMOOTHING_FACTOR])
  have hsnapin : mathAbs (target - (VideoPlayback.scaleTick target)^[k] current) ≤
      VideoPlayback.MIN_DELTA := by
    have h1 := VideoPlayback.scaleTick_iterate_bound target current k
    have hk2 : (1 - VideoPlayback.SMOOTHING_FACTOR)^k * (mathAbs (target - current) + 1) <
        VideoPlayback.MIN_DELTA := (lt_div_iff₀ hpos).mp hk
    have hknn : (0:ℚ) ≤ (1 - VideoPlayback.SMOOTHING_FACTOR)^k :=
      pow_nonneg (by norm_num [VideoPlayback.SMOOTHING_FACTOR]) k
    nlinarith
  refine ⟨k + 1, ?_⟩
  have hbase : (VideoPlayback.scaleTick target)^[k+1] current = target := by
    rw [Function.iterate_succ_apply']
    exact VideoPlayback.scaleTick_snap _ _ hsnapin
  intro n hn
  obtain ⟨m, rfl⟩ := Nat.exists_eq_add_of_le hn
  induction m with
  | zero => simpa using hbase
  | succ m ihm =>
    rw [show k + 1 + (m+1) = (k + 1 + m) + 1 by ring]
    rw [Function.iterate_succ_apply']
    rw [ihm (by omega)]
    exact VideoPlayback.scaleTick_fixed target

/-!
## Concrete instances used by the claims
-/

/-- Primary-button clicks at 0 ms, 100 ms and 600 ms (claim C1). -/
def c1Events : List CursorEvent :=
  [ { type := .click, timestamp := 0, normalizedX := 1/2, normalizedY := 1/2 }
  , { type := .click, timestamp := 100, normalizedX := 1/2, normalizedY := 1/2 }
  , { type := .click, timestamp := 600, normalizedX := 1/2, normalizedY := 1/2 } ]

/-- A single zoom region spanning 1000 ms to 3000 ms (claim C2). -/
def c2Region : ZoomRegion :=
  { id := "r", startMs := 1000, endMs := 3000, depth := 3, focus := ⟨1/2, 1/2⟩ }

/-- Auto region spanning 0 ms to 2000 ms (claim C7). -/
def c7auto : ZoomRegion :=
  { id := "a", startMs := 0, endMs := 2000, depth := 3, focus := ⟨1/2, 1/2⟩ }

/-- Manual region spanning 500 ms to 1500 ms (claim C7). -/
def c7manual : ZoomRegion :=
  { id := "m", startMs := 500, endMs := 1500, depth := 3, focus := ⟨1/2, 1/2⟩ }

/-!
## Claim C1 (region debounce at t = 0, 100, 600)
-/

/-- Claim C1 as stated is false: with primary clicks at 0, 100 and 600 ms,
`minIntervalMs = 500` and the remaining defaults, `generateAutoZoomRegions`
does not return two regions.  The debounce measures from the end of the
previous zoom (`lastZoomEndMs = 2000`), so the click at 600 ms is dropped
as well and only the region starting at 0 remains. -/
theorem c1_regionDebounce_counterexample :
    (CursorUtils.generateAutoZoomRegions c1Events 10000 0
      CursorUtils.DEFAULT_AUTO_ZOOM_CONFIG).regions.length ≠ 2 := by
  rw [CursorUtils.generateAutoZoomRegions]
  have hclick : c1Events.filter (fun e =>
      decide (e.type = CursorEventType.click) &&
        (decide (e.button = some 1) || decide (e.button = none))) = c1Events := by
    norm_num [c1Events, List.filter_cons]
  simp only [hclick]
  norm_num [c1Events, CursorUtils.autoZoomStep, mathMin, clamp01, mathMax,
    CursorUtils.jsRound, CursorUtils.DEFAULT_AUTO_ZOOM_CONFIG]

/-- Claim C1, amended: with primary clicks at 0, 100 and 600 ms and
`minIntervalMs = 500` (other settings default, video long enough),
`generateAutoZoomRegions` returns exactly one region, starting at 0 ms;
the clicks at 100 ms and 600 ms are both dropped by the debounce because
they occur less than `minIntervalMs` after the first zoom ends at
2000 ms. -/
theorem c1_regionDebounce_amended :
    (CursorUtils.generateAutoZoomRegions c1Events 10000 0
      CursorUtils.DEFAULT_AUTO_ZOOM_CONFIG).regions.map ZoomRegion.startMs = [0] := by
  rw [CursorUtils.generateAutoZoomRegions]
  have hclick : c1Events.filter (fun e =>
      decide (e.type = CursorEventType.click) &&
        (decide (e.button = some 1) || decide (e.button = none))) = c1Events := by
    norm_num [c1Events, List.filter_cons]
  simp only [hclick]
  norm_num [c1Events, CursorUtils.autoZoomStep, mathMin, clamp01, mathMax,
    CursorUtils.jsRound, CursorUtils.DEFAULT_AUTO_ZOOM_CONFIG]

/-!
## Claim C2 (dominance strength for the region 1000..3000 with W = 400)
-/

/-- Claim C2 as stated is false at the time 1000: the fade-in window is
`[startMs - W, startMs]`, so the strength at `startMs = 1000` is already
exactly 1, not a strictly partial value. -/
theorem c2_regionStrength_counterexample :
    computeRegionStrength c2Region 1000 = 1 ∧
      ¬ (0 < computeRegionStrength c2Region 1000 ∧
          computeRegionStrength c2Region 1000 < 1) := by
  have h : computeRegionStrength c2Region 1000 = 1 := by
    norm_num [computeRegionStrength, smootherStep, clamp01, mathMin, mathMax, c2Region,
      PlaybackConstants.TRANSITION_WINDOW_MS]
  refine ⟨h, ?_⟩
  rw [h]
  exact fun hc => absurd hc.2 (lt_irrefl 1)

/-- Claim C2, amended: for the region `[1000, 3000]` with `W = 400`, the
strength is 0 at 600, strictly partial at 800 (it equals 1/2), exactly 1
at 1000 (the fade-in completes at `startMs`), exactly 1 at 2000 and 0 at
3400. -/
theorem c2_regionStrength_amended :
    computeRegionStrength c2Region 600 = 0 ∧
      (0 < computeRegionStrength c2Region 800 ∧
        computeRegionStrength c2Region 800 < 1) ∧
      computeRegionStrength c2Region 1000 = 1 ∧
      computeRegionStrength c2Region 2000 = 1 ∧
      computeRegionStrength c2Region 3400 = 0 := by
  have h800 : computeRegionStrength c2Region 800 = 1/2 := by
    norm_num [computeRegionStrength, smootherStep, clamp01, mathMin, mathMax, c2Region,
      PlaybackConstants.TRANSITION_WINDOW_MS]
  refine ⟨?_, ⟨?_, ?_⟩, ?_, ?_, ?_⟩ <;>
    first
      | (rw [h800]; norm_num)
      | norm_num [computeRegionStrength, smootherStep, clamp01, mathMin, mathMax, c2Region,
          PlaybackConstants.TRANSITION_WINDOW_MS]

/-!
## Claim C7 (merge precedence)
-/

/-- Claim C7: `mergeZoomRegions` returns exactly the manual regions plus
the auto regions whose `[startMs, endMs)` interval overlaps no manual
region, sorted by `startMs` ascending; and on the particular input of an
auto region `[0, 2000]` and a manual region `[500, 1500]` it yields only
the manual region. -/
theorem c7_mergePrecedence :
    (∀ autoRegions manualRegions : List ZoomRegion,
        (mergeZoomRegions autoRegions manualRegions).Perm
            (manualRegions ++ autoRegions.filter fun a =>
              decide (∀ m ∈ manualRegions, a.endMs ≤ m.startMs ∨ m.endMs ≤ a.startMs)) ∧
          List.Pairwise (fun r1 r2 : ZoomRegion => r1.startMs ≤ r2.startMs)
            (mergeZoomRegions autoRegions manualRegions)) ∧
      mergeZoomRegions [c7auto] [c7manual] = [c7manual] := by
  refine ⟨fun autoRegions manualRegions => ⟨?_, ?_⟩, ?_⟩
  · have hcongr : autoRegions.filter (fun a => ! overlapsManualB manualRegions a) =
        autoRegions.filter (fun a =>
          decide (∀ m ∈ manualRegions, a.endMs ≤ m.startMs ∨ m.endMs ≤ a.startMs)) := by
      refine List.filter_congr ?_
      intro a _
      rw [Bool.eq_iff_iff]
      simp [overlapsManualB, List.any_eq_true]
      constructor
      · intro h m hm
        rcases lt_or_le m.startMs a.endMs with hlt | hle
        · exact Or.inr (h m hm hlt)
        · exact Or.inl hle
      · intro h m hm hlt
        rcases h m hm with h1 | h1
        · exact absurd hlt (not_lt.mpr h1)
        · exact h1
    rw [mergeZoomRegions]
    rw [hcongr]
    exact List.mergeSort_perm _ _
  · rw [mergeZoomRegions]
    have hsorted := @List.sorted_mergeSort ZoomRegion
      (fun r1 r2 : ZoomRegion => decide (r1.startMs ≤ r2.startMs))
      (fun a b c hab hbc =>
        decide_eq_true (le_trans (of_decide_eq_true hab) (of_decide_eq_true hbc)))
      (fun a b => by
        rcases le_total a.startMs b.startMs with h | h <;> simp [h])
      (manualRegions ++ autoRegions.filter fun a => ! overlapsManualB manualRegions a)
    exact hsorted.imp fun h => of_decide_eq_true h
  · rw [mergeZoomRegions]
    have hdrop : [c7auto].filter (fun a => ! overlapsManualB [c7manual] a) = [] := by
      norm_num [overlapsManualB, c7auto, c7manual, List.filter_cons]
    rw [hdrop]
    simp

/-!
## Claims C3 and C6 (spline interpolation range and knot idempotence)
-/

/-- A focus point with both coordinates in the unit interval. -/
def focusInUnit (f : ZoomFocus) : Prop :=
  0 ≤ f.cx ∧ f.cx ≤ 1 ∧ 0 ≤ f.cy ∧ f.cy ≤ 1

/-- A focus point with both coordinates in `[-1/8, 9/8]`, the widened band
the Catmull-Rom interpolation can actually reach from unit-interval
keyframes. -/
def focusInBand (f : ZoomFocus) : Prop :=
  -(1/8) ≤ f.cx ∧ f.cx ≤ 9/8 ∧ -(1/8) ≤ f.cy ∧ f.cy ≤ 9/8

/-- The unit interval sits inside the widened band. -/
theorem focusInUnit_to_band {f : ZoomFocus} (h : focusInUnit f) : focusInBand f := by
  obtain ⟨h1, h2, h3, h4⟩ := h
  exact ⟨by linarith, by linarith, by linarith, by linarith⟩

/-- The last element returned by `getLastD` on a nonempty list is a member
of the list. -/
theorem getLastD_mem {α : Type} (l : List α) (d : α) (h : l.length ≠ 0) :
    l.getLastD d ∈ l := by
  induction l with
  | nil => exact absurd rfl h
  | cons a rest ih =>
    cases rest with
    | nil => simp [List.getLastD]
    | cons b rest2 =>
      rw [List.getLastD_cons]
      exact List.mem_cons_of_mem a (ih (by simp))

/-- Membership for `getD` with an in-range index. -/
theorem getD_mem_of_lt {α : Type} (l : List α) (d : α) (j : ℕ) (h : j < l.length) :
    l.getD j d ∈ l := by
  rw [List.getD_eq_getElem l d h]
  exact List.getElem_mem h

/-- Closed form of `catmullRomInterpolate`. -/
theorem catmullRom_formula (p0 p1 p2 p3 t tension : ℚ) :
    catmullRomInterpolate p0 p1 p2 p3 t tension =
      (2*t^3 - 3*t^2 + 1) * p1 + (t^3 - 2*t^2 + t) * (tension * (p2 - p0)) +
      (-2*t^3 + 3*t^2) * p2 + (t^3 - t^2) * (tension * (p3 - p1)) := by
  rw [catmullRomInterpolate]
  ring

/-- The Catmull-Rom segment starts exactly at its second control point. -/
theorem catmullRom_zero (p0 p1 p2 p3 tension : ℚ) :
    catmullRomInterpolate p0 p1 p2 p3 0 tension = p1 := by
  rw [catmullRom_formula]
  ring

/-- With tension 1/2 and all four control points in `[0, 1]`, the
Catmull-Rom value stays within `[-1/8, 9/8]` for parameters in `[0, 1]`
(and `1/8` is attained, see the C3 counterexample, so `[0, 1]` itself is
not an invariant). -/
theorem catmullRom_bound (p0 p1 p2 p3 t : ℚ)
    (hp0 : 0 ≤ p0) (hp0u : p0 ≤ 1) (hp1 : 0 ≤ p1) (hp1u : p1 ≤ 1)
    (hp2 : 0 ≤ p2) (hp2u : p2 ≤ 1) (hp3 : 0 ≤ p3) (hp3u : p3 ≤ 1)
    (ht0 : 0 ≤ t) (ht1 : t ≤ 1) :
    -(1/8) ≤ catmullRomInterpolate p0 p1 p2 p3 t (1/2) ∧
      catmullRomInterpolate p0 p1 p2 p3 t (1/2) ≤ 9/8 := by
  rw [catmullRom_formula]
  have h1t : (0:ℚ) ≤ 1 - t := by linarith
  constructor
  · have hid : ((2*t^3 - 3*t^2 + 1) * p1 + (t^3 - 2*t^2 + t) * ((1/2) * (p2 - p0)) +
        (-2*t^3 + 3*t^2) * p2 + (t^3 - t^2) * ((1/2) * (p3 - p1))) + 1/8 =
        (1-t)^2*(2*t+1)*p1 + t^2*(3-2*t)*p2 + (t*(1-t)^2/2)*(1+(p2-p0)) +
          (t^2*(1-t)/2)*(1-(p3-p1)) + (2*t-1)^2/8 := by
      ring
    have ha : (0:ℚ) ≤ (1-t)^2*(2*t+1)*p1 :=
      mul_nonneg (mul_nonneg (sq_nonneg _) (by linarith)) hp1
    have hb : (0:ℚ) ≤ t^2*(3-2*t)*p2 :=
      mul_nonneg (mul_nonneg (sq_nonneg _) (by linarith)) hp2
    have hc : (0:ℚ) ≤ (t*(1-t)^2/2)*(1+(p2-p0)) := by
      refine mul_nonneg (by positivity) (by linarith)
    have hd : (0:ℚ) ≤ (t^2*(1-t)/2)*(1-(p3-p1)) := by
      refine mul_nonneg (by positivity) (by linarith)
    have he : (0:ℚ) ≤ (2*t-1)^2/8 := by positivity
    linarith
  · have hid : (9:ℚ)/8 - ((2*t^3 - 3*t^2 + 1) * p1 + (t^3 - 2*t^2 + t) * ((1/2) * (p2 - p0)) +
        (-2*t^3 + 3*t^2) * p2 + (t^3 - t^2) * ((1/2) * (p3 - p1))) =
        (1-t)^2*(2*t+1)*(1-p1) + t^2*(3-2*t)*(1-p2) + (t*(1-t)^2/2)*(1-(p2-p0)) +
          (t^2*(1-t)/2)*(1+(p3-p1)) + (2*t-1)^2/8 := by
      ring
    have ha : (0:ℚ) ≤ (1-t)^2*(2*t+1)*(1-p1) :=
      mul_nonneg (mul_nonneg (sq_nonneg _) (by linarith)) (by linarith)
    have hb : (0:ℚ) ≤ t^2*(3-2*t)*(1-p2) :=
      mul_nonneg (mul_nonneg (sq_nonneg _) (by linarith)) (by linarith)
    have hc : (0:ℚ) ≤ (t*(1-t)^2/2)*(1-(p2-p0)) := by
      refine mul_nonneg (by positivity) (by linarith)
    have hd : (0:ℚ) ≤ (t^2*(1-t)/2)*(1+(p3-p1)) := by
      refine mul_nonneg (by positivity) (by linarith)
    have he : (0:ℚ) ≤ (2*t-1)^2/8 := by positivity
    linarith

/-- The index search of `interpolateFocusFromKeyframes` always finds a
bracketing pair once the query offset lies strictly between the first and
the last keyframe offsets (no ordering assumption needed): the returned
index points at a pair `(kf[j], kf[j+1])` with
`kf[j].timeOffsetMs ≤ t < kf[j+1].timeOffsetMs`. -/
theorem findSegmentAux_spec (k0 : ZoomFocusKeyframe) :
    ∀ (kfs : List ZoomFocusKeyframe) (t : ℚ) (i : ℕ),
      2 ≤ kfs.length →
      (kfs.headD k0).timeOffsetMs ≤ t →
      t < (kfs.getLastD k0).timeOffsetMs →
      ∃ j, findSegmentAux kfs t i = some (i + j) ∧ j + 1 < kfs.length ∧
        (kfs.getD j k0).timeOffsetMs ≤ t ∧ t < (kfs.getD (j+1) k0).timeOffsetMs := by
  intro kfs
  induction kfs with
  | nil => intro t i hlen; simp at hlen
  | cons k1 rest ih =>
    cases rest with
    | nil => intro t i hlen; simp at hlen
    | cons k2 rest2 =>
      intro t i _ hhead hlast
      rw [findSegmentAux]
      by_cases hseg : k1.timeOffsetMs ≤ t ∧ t < k2.timeOffsetMs
      · rw [if_pos hseg]
        exact ⟨0, by simp, by simp, by simpa using hseg.1, by simpa using hseg.2⟩
      · rw [if_neg hseg]
        have hk1 : k1.timeOffsetMs ≤ t := by simpa using hhead
        have hk2 : k2.timeOffsetMs ≤ t := by
          rcases not_and_or.mp hseg with h | h
          · exact absurd hk1 h
          · exact not_lt.mp h
        cases rest2 with
        | nil =>
          have : t < k2.timeOffsetMs := by
            simpa [List.getLastD_cons] using hlast
          exact absurd this (not_lt.mpr hk2)
        | cons k3 rest3 =>
          obtain ⟨j, hfind, hjlen, hj1, hj2⟩ := ih t (i+1)
            (by simp)
            (by simpa using hk2)
            (by simpa [List.getLastD_cons] using hlast)
          refine ⟨j+1, ?_, ?_, ?_, ?_⟩
          · rw [hfind]
            congr 1
            omega
          · simp only [List.length_cons] at hjlen ⊢
            omega
          · simpa using hj1
          · simpa using hj2

/-- Region used by the C3 counterexample and the C3/C6 witnesses: static
focus and all keyframe focus coordinates lie in `[0, 1]`. -/
def c3Region : ZoomRegion :=
  { id := "r", startMs := 0, endMs := 1000, depth := 3, focus := ⟨1/2, 1/2⟩,
    focusKeyframes := some
      [ ⟨0, ⟨0, 0⟩⟩, ⟨100, ⟨9/10, 0⟩⟩, ⟨200, ⟨1, 0⟩⟩, ⟨300, ⟨1/2, 0⟩⟩ ] }

/-- Claim C3 as stated is false: `c3Region` has its static focus and all
keyframe focus coordinates in `[0, 1]`, yet the Catmull-Rom interpolation
overshoots at the midpoint of the second segment, returning
`cx = 83/80 > 1`. -/
theorem c3_focusRange_counterexample :
    focusInUnit c3Region.focus ∧
      (∀ k ∈ c3Region.focusKeyframes.getD [], focusInUnit k.focus) ∧
      1 < (interpolateFocusFromKeyframes c3Region 150).cx := by
  refine ⟨by norm_num [focusInUnit, c3Region], ?_, ?_⟩
  · intro k hk
    simp only [c3Region, Option.getD_some, List.mem_cons, List.not_mem_nil, or_false] at hk
    rcases hk with rfl | rfl | rfl | rfl <;> norm_num [focusInUnit]
  · have hval : (interpolateFocusFromKeyframes c3Region 150).cx = 83/80 := by
      norm_num [interpolateFocusFromKeyframes, c3Region, findSegmentAux,
        catmullRomInterpolate, List.getLastD, List.getD]
    rw [hval]
    norm_num

/-- Claim C3, amended: for every zoom region whose static focus and all
keyframe focus coordinates lie in `[0, 1]` and every query time, both
coordinates of the interpolated focus lie in the band `[-1/8, 9/8]` (the
tension-1/2 Catmull-Rom spline can overshoot the unit interval by at most
1/8 on each side; `[0, 1]` itself does not hold, see the
counterexample). -/
theorem c3_focusRange_amended (region : ZoomRegion)
    (hfocus : focusInUnit region.focus)
    (hkfs : ∀ k ∈ region.focusKeyframes.getD [], focusInUnit k.focus)
    (currentTimeMs : ℚ) :
    focusInBand (interpolateFocusFromKeyframes region currentTimeMs) := by
  rcases ho : region.focusKeyframes with _ | kfs
  · simp only [interpolateFocusFromKeyframes, ho]
    exact focusInUnit_to_band hfocus
  · rw [ho, Option.getD_some] at hkfs
    cases kfs with
    | nil =>
      simp only [interpolateFocusFromKeyframes, ho]
      exact focusInUnit_to_band hfocus
    | cons k0 rest =>
      simp only [interpolateFocusFromKeyframes, ho]
      split
      · exact focusInUnit_to_band (hkfs k0 (List.mem_cons_self _ _))
      · split
        · exact focusInUnit_to_band (hkfs _ (getLastD_mem _ _ (by simp)))
        · rename_i hnot1 hnot2
          cases rest with
          | nil =>
            rw [List.getLastD_cons, List.getLastD_nil] at hnot2
            exact absurd (le_of_lt (not_le.mp hnot1)) hnot2
          | cons k1 rest2 =>
            obtain ⟨j, hfind, hjlen, hj1, hj2⟩ :=
              findSegmentAux_spec k0 (k0 :: k1 :: rest2) (currentTimeMs - region.startMs) 0
                (by simp)
                (by simpa using le_of_lt (not_le.mp hnot1))
                (not_le.mp hnot2)
            rw [hfind]
            simp only [Nat.zero_add, Option.getD_some]
            have hlen0 : j < (k0 :: k1 :: rest2).length := by omega
            have hp1m := hkfs _ (getD_mem_of_lt (k0 :: k1 :: rest2) k0 j hlen0)
            have hp2m := hkfs _ (getD_mem_of_lt (k0 :: k1 :: rest2) k0 (j+1) hjlen)
            have hsegpos : (0:ℚ) <
                ((k0 :: k1 :: rest2).getD (j+1) k0).timeOffsetMs -
                  ((k0 :: k1 :: rest2).getD j k0).timeOffsetMs := by linarith
            rw [if_neg (not_le.mpr hsegpos)]
            have hp0m : focusInUnit ((if 0 < j then (k0 :: k1 :: rest2).getD (j-1) k0
                else (k0 :: k1 :: rest2).getD j k0)).focus := by
              split
              · exact hkfs _ (getD_mem_of_lt _ k0 (j-1) (by omega))
              · exact hp1m
            have hp3m : focusInUnit ((if j + 2 < (k0 :: k1 :: rest2).length
                then (k0 :: k1 :: rest2).getD (j+2) k0
                else (k0 :: k1 :: rest2).getD (j+1) k0)).focus := by
              split
              · exact hkfs _ (getD_mem_of_lt _ k0 (j+2) (by omega))
              · exact hp2m
            have ht0 : (0:ℚ) ≤
                (currentTimeMs - region.startMs - ((k0 :: k1 :: rest2).getD j k0).timeOffsetMs) /
                  (((k0 :: k1 :: rest2).getD (j+1) k0).timeOffsetMs -
                    ((k0 :: k1 :: rest2).getD j k0).timeOffsetMs) :=
              div_nonneg (by linarith) (by linarith)
            have ht1 : (currentTimeMs - region.startMs -
                  ((k0 :: k1 :: rest2).getD j k0).timeOffsetMs) /
                  (((k0 :: k1 :: rest2).getD (j+1) k0).timeOffsetMs -
                    ((k0 :: k1 :: rest2).getD j k0).timeOffsetMs) ≤ 1 := by
              rw [div_le_one hsegpos]
              linarith
            obtain ⟨ha0, ha1, ha2, ha3⟩ := hp0m
            obtain ⟨hb0, hb1, hb2, hb3⟩ := hp1m
            obtain ⟨hc0, hc1, hc2, hc3⟩ := hp2m
            obtain ⟨hd0, hd1, hd2, hd3⟩ := hp3m
            refine ⟨(catmullRom_bound _ _ _ _ _ ha0 ha1 hb0 hb1 hc0 hc1 hd0 hd1 ht0 ht1).1,
              (catmullRom_bound _ _ _ _ _ ha0 ha1 hb0 hb1 hc0 hc1 hd0 hd1 ht0 ht1).2,
              (catmullRom_bound _ _ _ _ _ ha2 ha3 hb2 hb3 hc2 hc3 hd2 hd3 ht0 ht1).1,
              (catmullRom_bound _ _ _ _ _ ha2 ha3 hb2 hb3 hc2 hc3 hd2 hd3 ht0 ht1).2⟩

/-- Witness for the amended claim C3 at `c3Region` and query time 150. -/
theorem c3_focusRange_witness :
    focusInBand (interpolateFocusFromKeyframes c3Region 150) := by
  refine c3_focusRange_amended c3Region (by norm_num [focusInUnit, c3Region]) ?_ 150
  intro k hk
  simp only [c3Region, Option.getD_some, List.mem_cons, List.not_mem_nil, or_false] at hk
  rcases hk with rfl | rfl | rfl | rfl <;> norm_num [focusInUnit]

/-- Claim C6: for a region whose keyframes have strictly increasing
offsets (at least two of them), evaluating the interpolation exactly at
`startMs + kf[p].timeOffsetMs` returns `kf[p].focus` — the spline passes
through every knot with no residual. -/
theorem c6_knotIdempotence (region : ZoomRegion) (kfs : List ZoomFocusKeyframe)
    (hkf : region.focusKeyframes = some kfs) (hlen : 2 ≤ kfs.length)
    (hinc : List.Pairwise (fun a b => a.timeOffsetMs < b.timeOffsetMs) kfs)
    (p : ℕ) (hp : p < kfs.length) :
    interpolateFocusFromKeyframes region
      (region.startMs + (kfs.get ⟨p, hp⟩).timeOffsetMs) = (kfs.get ⟨p, hp⟩).focus := by
  have hmono : ∀ (i j : ℕ) (hi : i < kfs.length) (hj : j < kfs.length), i < j →
      (kfs.get ⟨i, hi⟩).timeOffsetMs < (kfs.get ⟨j, hj⟩).timeOffsetMs := by
    intro i j hi hj hij
    exact List.pairwise_iff_get.mp hinc ⟨i, hi⟩ ⟨j, hj⟩ (Fin.mk_lt_mk.mpr hij)
  cases kfs with
  | nil => simp at hlen
  | cons k0 rest =>
    simp only [interpolateFocusFromKeyframes, hkf]
    have hτ : region.startMs + ((k0 :: rest).get ⟨p, hp⟩).timeOffsetMs - region.startMs =
        ((k0 :: rest).get ⟨p, hp⟩).timeOffsetMs := by ring
    rw [hτ]
    rcases Nat.eq_zero_or_pos p with rfl | hppos
    · have h0 : (k0 :: rest).get ⟨0, hp⟩ = k0 := rfl
      rw [h0]
      rw [if_pos (le_refl k0.timeOffsetMs)]
    · have hbr1 : ¬(((k0 :: rest).get ⟨p, hp⟩).timeOffsetMs ≤ k0.timeOffsetMs) := by
        have h01 := hmono 0 p (by omega) hp hppos
        have h0 : (k0 :: rest).get ⟨0, by omega⟩ = k0 := rfl
        rw [h0] at h01
        linarith
      rw [if_neg hbr1]
      have hne : (k0 :: rest) ≠ [] := by simp
      have hlast_eq : (k0 :: rest).getLastD k0 =
          (k0 :: rest).get ⟨(k0 :: rest).length - 1, by simp⟩ := by
        rw [List.getLastD_eq_getLast?, List.getLast?_eq_getLast (k0 :: rest) hne]
        rw [List.getLast_eq_getElem]
        rw [List.get_eq_getElem]
        rfl
      have hplast : p ≤ (k0 :: rest).length - 1 := by
        simp only [List.length_cons] at hp ⊢
        omega
      rcases eq_or_lt_of_le hplast with hpl | hplt
      · have hgetp : (k0 :: rest).get ⟨p, hp⟩ =
            (k0 :: rest).get ⟨(k0 :: rest).length - 1, by simp⟩ := by
          congr 1
          exact Fin.ext hpl
        rw [hlast_eq, if_pos (le_of_eq (by rw [hgetp]))]
        rw [hgetp]
      · have hbr2 : ¬(((k0 :: rest).getLastD k0).timeOffsetMs ≤
            ((k0 :: rest).get ⟨p, hp⟩).timeOffsetMs) := by
          rw [hlast_eq]
          have := hmono p ((k0 :: rest).length - 1) hp (by simp) hplt
          linarith
        rw [if_neg hbr2]
        obtain ⟨j, hfind, hjlen, hj1, hj2⟩ :=
          findSegmentAux_spec k0 (k0 :: rest) ((k0 :: rest).get ⟨p, hp⟩).timeOffsetMs 0
            hlen (by simpa using le_of_lt (not_le.mp hbr1)) (not_le.mp hbr2)
        have hjlt : j < (k0 :: rest).length := by omega
        have hgetDj : (k0 :: rest).getD j k0 = (k0 :: rest).get ⟨j, hjlt⟩ := by
          rw [List.getD_eq_getElem _ _ hjlt, List.get_eq_getElem]
        have hgetDj1 : (k0 :: rest).getD (j+1) k0 = (k0 :: rest).get ⟨j+1, hjlen⟩ := by
          rw [List.getD_eq_getElem _ _ hjlen, List.get_eq_getElem]
        have hjp : j = p := by
          rcases lt_trichotomy j p with hlt | heq | hgt
          · exfalso
            have hle : ((k0 :: rest).get ⟨j+1, hjlen⟩).timeOffsetMs ≤
                ((k0 :: rest).get ⟨p, hp⟩).timeOffsetMs := by
              rcases eq_or_lt_of_le (Nat.succ_le_of_lt hlt) with h1 | h1
              · have hfin : (⟨j+1, hjlen⟩ : Fin (k0 :: rest).length) = ⟨p, hp⟩ :=
                  Fin.mk_eq_mk.mpr h1
                rw [hfin]
              · exact le_of_lt (hmono (j+1) p hjlen hp h1)
            rw [hgetDj1] at hj2
            linarith
          · exact heq
          · exfalso
            have hlt2 := hmono p j hp hjlt hgt
            rw [hgetDj] at hj1
            linarith
        subst hjp
        rw [hfind]
        simp only [Nat.zero_add, Option.getD_some]
        rw [hgetDj, hgetDj1]
        have hseg : (0:ℚ) < ((k0 :: rest).get ⟨j+1, hjlen⟩).timeOffsetMs -
            ((k0 :: rest).get ⟨j, hjlt⟩).timeOffsetMs := by
          rw [hgetDj1] at hj2
          have : (k0 :: rest).get ⟨j, hjlt⟩ = (k0 :: rest).get ⟨j, hp⟩ := rfl
          rw [this]
          linarith
        rw [if_neg (not_le.mpr hseg)]
        have hteq : ((k0 :: rest).get ⟨j, hp⟩).timeOffsetMs -
            ((k0 :: rest).get ⟨j, hjlt⟩).timeOffsetMs = 0 := by
          have : (k0 :: rest).get ⟨j, hjlt⟩ = (k0 :: rest).get ⟨j, hp⟩ := rfl
          rw [this]
          ring
        rw [hteq, zero_div, catmullRom_zero, catmullRom_zero]

/-- Keyframes for the C6 witness: two knots with strictly increasing
offsets. -/
def c6wKfs : List ZoomFocusKeyframe := [⟨0, ⟨1/4, 1/4⟩⟩, ⟨100, ⟨3/4, 1/2⟩⟩]

/-- Region for the C6 witness. -/
def c6wRegion : ZoomRegion :=
  { id := "w", startMs := 1000, endMs := 3000, depth := 3, focus := ⟨1/2, 1/2⟩,
    focusKeyframes := some c6wKfs }

/-- Witness for claim C6: evaluating at the second knot of `c6wRegion`
returns exactly that knot's focus. -/
theorem c6_knotIdempotence_witness :
    interpolateFocusFromKeyframes c6wRegion
        (c6wRegion.startMs + (c6wKfs.get ⟨1, by norm_num [c6wKfs]⟩).timeOffsetMs) =
      (c6wKfs.get ⟨1, by norm_num [c6wKfs]⟩).focus := by
  refine c6_knotIdempotence c6wRegion c6wKfs rfl (by norm_num [c6wKfs]) ?_ 1
    (by norm_num [c6wKfs])
  rw [c6wKfs]
  refine List.pairwise_cons.mpr ⟨?_, ?_⟩
  · intro b hb
    simp only [List.mem_singleton] at hb
    subst hb
    norm_num
  · simp

/-!
## Claim C4 (stationary cursor yields no focus keyframes)
-/

/-- Events for the C4 counterexample: a primary click at 0 ms on the
screen center, then a single move at 100 ms a distance of 0.007 normalized
units away, which is within `keyframeMinDistance = 0.01` but beyond half
of it. -/
def c4Events : List CursorEvent :=
  [ { type := .click, timestamp := 0, normalizedX := 1/2, normalizedY := 1/2 }
  , { type := .move, timestamp := 100, normalizedX := 1/2 + 7/1000, normalizedY := 1/2 } ]

/-- The move event of `c4Events`. -/
def c4Move : CursorEvent :=
  { type := .move, timestamp := 100, normalizedX := 1/2 + 7/1000, normalizedY := 1/2 }

/-- A single primary click at 0 ms, used by the C4 witness. -/
def c4wEvents : List CursorEvent :=
  [ { type := .click, timestamp := 0, normalizedX := 1/2, normalizedY := 1/2 } ]

/-- The auto-zoom region generated from `c4wEvents`. -/
def c4WitnessRegion : ZoomRegion :=
  { id := "auto-zoom-" ++ toString 1, startMs := 0, endMs := 2000, depth := 3,
    focus := ⟨1/2, 1/2⟩, focusKeyframes := none }

/-- A squared distance between focus points is nonnegative. -/
theorem distSq_nonneg (a b : ZoomFocus) : 0 ≤ CursorUtils.distSq a b :=
  add_nonneg (sq_nonneg _) (sq_nonneg _)

/-- The embedded comparison `Math.sqrt(d2) >= m` is false whenever
`0 ≤ m`, `0 ≤ d2` and `d2 < m^2`. -/
theorem sqrtGeB_eq_false (m d2 : ℚ) (hm : 0 ≤ m) (h0 : 0 ≤ d2) (h : d2 < m^2) :
    CursorUtils.sqrtGeB d2 m = false := by
  rcases eq_or_lt_of_le hm with rfl | hpos
  · exact absurd (h.trans_le (by norm_num)) (not_lt.mpr h0)
  · rw [CursorUtils.sqrtGeB, if_pos hpos]
    exact decide_eq_false (not_le.mpr h)

/-- A move whose clamped position stays within half the minimum keyframe
distance of the last emitted focus leaves the sampling state of
`generateFocusKeyframes` unchanged. -/
theorem keyframeScanStep_fixed (cfg : CursorUtils.AutoZoomConfig) (s : ℚ) (f : ZoomFocus)
    (kfs : List ZoomFocusKeyframe) (t0 : ℚ) (m : CursorEvent)
    (hmd : 0 ≤ cfg.keyframeMinDistance)
    (hnear : CursorUtils.distSq ⟨clamp01 m.normalizedX, clamp01 m.normalizedY⟩ f <
      (cfg.keyframeMinDistance / 2)^2) :
    CursorUtils.keyframeScanStep cfg s ⟨kfs, f, t0⟩ m = ⟨kfs, f, t0⟩ := by
  rw [CursorUtils.keyframeScanStep]
  split
  · rfl
  · have hfalse : CursorUtils.sqrtGeB
        (CursorUtils.distSq ⟨clamp01 m.normalizedX, clamp01 m.normalizedY⟩ f)
        cfg.keyframeMinDistance = false :=
      sqrtGeB_eq_false _ _ hmd (distSq_nonneg _ _)
        (lt_of_lt_of_le hnear (by nlinarith [sq_nonneg cfg.keyframeMinDistance]))
    simp [hfalse]

/-- Folding the sampling loop of `generateFocusKeyframes` over moves that
all stay within half the minimum keyframe distance of the initial focus
leaves the state unchanged. -/
theorem keyframeScan_foldl_fixed (cfg : CursorUtils.AutoZoomConfig) (s : ℚ) (f : ZoomFocus)
    (kfs : List ZoomFocusKeyframe) (t0 : ℚ)
    (hmd : 0 ≤ cfg.keyframeMinDistance) :
    ∀ (l : List CursorEvent),
      (∀ m ∈ l, CursorUtils.distSq ⟨clamp01 m.normalizedX, clamp01 m.normalizedY⟩ f <
        (cfg.keyframeMinDistance / 2)^2) →
      l.foldl (CursorUtils.keyframeScanStep cfg s) ⟨kfs, f, t0⟩ = ⟨kfs, f, t0⟩ := by
  intro l
  induction l with
  | nil => intro _; rfl
  | cons m rest ih =>
    intro h
    rw [List.foldl_cons]
    rw [keyframeScanStep_fixed cfg s f kfs t0 m hmd (h m (List.mem_cons_self m rest))]
    exact ih fun x hx => h x (List.mem_cons_of_mem m hx)

/-- If every move event inside the zoom window stays (in clamped
normalized coordinates) strictly within half of `keyframeMinDistance` of
the initial focus, `generateFocusKeyframes` returns only the initial
keyframe. -/
theorem generateFocusKeyframes_stationary (events : List CursorEvent)
    (s e : ℚ) (f : ZoomFocus) (cfg : CursorUtils.AutoZoomConfig)
    (hmd : 0 ≤ cfg.keyframeMinDistance)
    (hmoves : ∀ m ∈ events, m.type = CursorEventType.move → s ≤ m.timestamp →
      m.timestamp ≤ e →
      CursorUtils.distSq ⟨clamp01 m.normalizedX, clamp01 m.normalizedY⟩ f <
        (cfg.keyframeMinDistance / 2)^2) :
    CursorUtils.generateFocusKeyframes events s e f cfg = [⟨0, f⟩] := by
  rw [CursorUtils.generateFocusKeyframes]
  set moves := events.filter (fun ev =>
    decide (ev.type = CursorEventType.move) &&
      decide (s ≤ ev.timestamp) && decide (ev.timestamp ≤ e)) with hmovesdef
  have hnear : ∀ m ∈ moves,
      CursorUtils.distSq ⟨clamp01 m.normalizedX, clamp01 m.normalizedY⟩ f <
        (cfg.keyframeMinDistance / 2)^2 := by
    intro m hm
    rw [hmovesdef, List.mem_filter] at hm
    obtain ⟨hmem, hprop⟩ := hm
    simp only [Bool.and_eq_true, decide_eq_true_eq] at hprop
    exact hmoves m hmem hprop.1.1 hprop.1.2 hprop.2
  split
  · rfl
  · rename_i hlen
    rw [keyframeScan_foldl_fixed cfg s f _ _ hmd moves hnear]
    have hlast : CursorUtils.distSq
        ⟨clamp01 (moves.getLastD { type := CursorEventType.move, timestamp := 0 }).normalizedX,
          clamp01 (moves.getLastD { type := CursorEventType.move, timestamp := 0 }).normalizedY⟩ f <
        (cfg.keyframeMinDistance / 2)^2 :=
      hnear _ (getLastD_mem moves _ hlen)
    have hfalse : CursorUtils.sqrtGeB (CursorUtils.distSq
        ⟨clamp01 (moves.getLastD { type := CursorEventType.move, timestamp := 0 }).normalizedX,
          clamp01 (moves.getLastD { type := CursorEventType.move, timestamp := 0 }).normalizedY⟩ f)
        (cfg.keyframeMinDistance * (1/2)) = false := by
      refine sqrtGeB_eq_false _ _ (by linarith) (distSq_nonneg _ _) ?_
      calc CursorUtils.distSq _ _ < (cfg.keyframeMinDistance / 2)^2 := hlast
        _ = (cfg.keyframeMinDistance * (1/2))^2 := by ring
    dsimp only
    rw [List.getLastD_cons, List.getLastD_nil]
    dsimp only
    split
    · rw [hfalse]
      simp
    · rfl

/-- The region-to-click correspondence of `generateAutoZoomRegions`: the
region was emitted for an accepted primary click `c` of the event list
(its focus is the clamped click position and its bounds are the rounded
click window), and if every move event in that click's zoom window stays
strictly within half of `keyframeMinDistance` of the clamped click
position, the region carries no `focusKeyframes`. -/
def regionFromClick (events : List CursorEvent) (videoDur : ℚ)
    (cfg : CursorUtils.AutoZoomConfig) (r : ZoomRegion) : Prop :=
  ∃ c ∈ events, c.type = CursorEventType.click ∧
    (c.button = some 1 ∨ c.button = none) ∧
    r.focus = ⟨clamp01 c.normalizedX, clamp01 c.normalizedY⟩ ∧
    r.startMs = CursorUtils.jsRound c.timestamp ∧
    r.endMs = CursorUtils.jsRound (mathMin (c.timestamp + cfg.zoomDurationMs) videoDur) ∧
    ((∀ m ∈ events, m.type = CursorEventType.move →
        c.timestamp ≤ m.timestamp →
        m.timestamp ≤ mathMin (c.timestamp + cfg.zoomDurationMs) videoDur →
        CursorUtils.distSq ⟨clamp01 m.normalizedX, clamp01 m.normalizedY⟩
          ⟨clamp01 c.normalizedX, clamp01 c.normalizedY⟩ <
          (cfg.keyframeMinDistance / 2)^2) →
      r.focusKeyframes = none)

/-- The click loop of `generateAutoZoomRegions` only appends regions
satisfying `regionFromClick`. -/
theorem autoZoom_foldl_regionClick (events : List CursorEvent) (videoDur : ℚ)
    (cfg : CursorUtils.AutoZoomConfig) (hmd : 0 ≤ cfg.keyframeMinDistance) :
    ∀ (cl : List CursorEvent),
      (∀ c ∈ cl, c ∈ events ∧ c.type = CursorEventType.click ∧
        (c.button = some 1 ∨ c.button = none)) →
      ∀ (st : CursorUtils.GenState),
        (∀ r ∈ st.regions, regionFromClick events videoDur cfg r) →
      ∀ r ∈ (cl.foldl (CursorUtils.autoZoomStep events videoDur cfg) st).regions,
        regionFromClick events videoDur cfg r := by
  intro cl
  induction cl with
  | nil => intro _ st hst; exact hst
  | cons c cl ih =>
    intro hcl st hst
    rw [List.foldl_cons]
    refine ih (fun x hx => hcl x (List.mem_cons_of_mem c hx)) _ ?_
    obtain ⟨hcmem, hctype, hcbutton⟩ := hcl c (List.mem_cons_self c cl)
    rw [CursorUtils.autoZoomStep]
    split
    · exact hst
    · dsimp only
      split
      · exact hst
      · intro r hr
        dsimp only at hr
        rw [List.mem_append] at hr
        rcases hr with hr | hr
        · exact hst r hr
        · rw [List.mem_singleton] at hr
          subst hr
          refine ⟨c, hcmem, hctype, hcbutton, rfl, rfl, rfl, ?_⟩
          intro hstat
          dsimp only
          rw [generateFocusKeyframes_stationary events c.timestamp _ _ cfg hmd hstat]
          simp

/-- Claim C4 as stated is false: in `c4Events` the only move in the zoom
window lies within `keyframeMinDistance = 0.01` of the initial click focus
(its squared distance `0.007^2` is below `0.01^2`), yet the emitted region
carries a `focusKeyframes` field, appended by the trailing-keyframe
heuristic whose threshold is only half the minimum distance. -/
theorem c4_stationaryCursor_counterexample :
    (∀ e ∈ c4Events, e.type = CursorEventType.move →
      CursorUtils.distSq ⟨clamp01 e.normalizedX, clamp01 e.normalizedY⟩ ⟨1/2, 1/2⟩ <
        CursorUtils.DEFAULT_AUTO_ZOOM_CONFIG.keyframeMinDistance ^ 2) ∧
      (CursorUtils.generateAutoZoomRegions c4Events 2000 0
        CursorUtils.DEFAULT_AUTO_ZOOM_CONFIG).regions.map
          (fun r => r.focusKeyframes.isSome) = [true] := by
  constructor
  · intro e he htype
    simp only [c4Events, List.mem_cons, List.not_mem_nil, or_false] at he
    rcases he with rfl | rfl
    · exact absurd htype (by decide)
    · norm_num [CursorUtils.distSq, clamp01, mathMax, mathMin,
        CursorUtils.DEFAULT_AUTO_ZOOM_CONFIG]
  · have hkf : CursorUtils.generateFocusKeyframes c4Events 0 2000 ⟨1/2, 1/2⟩
        ⟨3, 2000, 500, 50, 1/100⟩ = [⟨0, ⟨1/2, 1/2⟩⟩, ⟨100, ⟨507/1000, 1/2⟩⟩] := by
      have hfil : c4Events.filter (fun e =>
          decide (e.type = CursorEventType.move) &&
            decide ((0:ℚ) ≤ e.timestamp) && decide (e.timestamp ≤ (2000:ℚ))) = [c4Move] := by
        norm_num [c4Events, c4Move, List.filter_cons]
        all_goals decide
      rw [CursorUtils.generateFocusKeyframes]
      simp only [hfil]
      norm_num [CursorUtils.keyframeScanStep, CursorUtils.sqrtGeB, CursorUtils.distSq,
        clamp01, mathMax, mathMin, c4Move, List.getLastD]
    rw [CursorUtils.generateAutoZoomRegions]
    have hclick : c4Events.filter (fun e =>
        decide (e.type = CursorEventType.click) &&
          (decide (e.button = some 1) || decide (e.button = none))) =
        [{ type := .click, timestamp := 0, normalizedX := 1/2, normalizedY := 1/2 }] := by
      norm_num [c4Events, List.filter_cons]
      all_goals decide
    simp only [hclick]
    norm_num [CursorUtils.autoZoomStep, mathMin, clamp01, mathMax, CursorUtils.jsRound,
      CursorUtils.DEFAULT_AUTO_ZOOM_CONFIG, hkf]

/-- Claim C4, amended and stated per accepted click: every region emitted
by `generateAutoZoomRegions` originates from an accepted primary click of
the event list (the region's focus is the clamped click position and its
bounds are the rounded click window), and whenever THAT click's zoom
window contains only move events lying strictly within HALF of
`keyframeMinDistance` (in clamped normalized coordinates, squared
Euclidean distance below `(keyframeMinDistance/2)^2`) of the click's
clamped position, the emitted region has no `focusKeyframes` field.  The
halving is forced by the trailing-keyframe heuristic, which appends a
final keyframe already at half the minimum distance.  Other clicks of the
list are unconstrained: the stationarity premise is local to the region's
own click. -/
theorem c4_stationaryCursor_amended (events : List CursorEvent) (videoDur : ℚ)
    (ctr : ℕ) (cfg : CursorUtils.AutoZoomConfig)
    (hmd : 0 ≤ cfg.keyframeMinDistance) :
    ∀ r ∈ (CursorUtils.generateAutoZoomRegions events videoDur ctr cfg).regions,
      regionFromClick events videoDur cfg r := by
  rw [CursorUtils.generateAutoZoomRegions]
  split
  · intro r hr
    simp at hr
  · refine autoZoom_foldl_regionClick events videoDur cfg hmd _ ?_ _ ?_
    · intro c hc
      rw [List.mem_filter] at hc
      obtain ⟨hmem, hp⟩ := hc
      simp only [Bool.and_eq_true, Bool.or_eq_true, decide_eq_true_eq] at hp
      exact ⟨hmem, hp.1, hp.2⟩
    · intro r hr
      simp at hr

/-- Witness for the amended claim C4: a single click with no moves at all
produces one region, and that region has no `focusKeyframes`. -/
theorem c4_stationaryCursor_witness :
    0 ≤ CursorUtils.DEFAULT_AUTO_ZOOM_CONFIG.keyframeMinDistance ∧
      c4WitnessRegion ∈ (CursorUtils.generateAutoZoomRegions c4wEvents 2000 0
        CursorUtils.DEFAULT_AUTO_ZOOM_CONFIG).regions ∧
      c4WitnessRegion.focusKeyframes = none := by
  have hkfw : CursorUtils.generateFocusKeyframes c4wEvents 0 2000 ⟨1/2, 1/2⟩
      ⟨3, 2000, 500, 50, 1/100⟩ = [⟨0, ⟨1/2, 1/2⟩⟩] := by
    refine generateFocusKeyframes_stationary c4wEvents 0 2000 ⟨1/2, 1/2⟩ _ (by norm_num) ?_
    intro m hm hmt
    simp only [c4wEvents, List.mem_singleton] at hm
    subst hm
    exact absurd hmt (by decide)
  have hreg : (CursorUtils.generateAutoZoomRegions c4wEvents 2000 0
      CursorUtils.DEFAULT_AUTO_ZOOM_CONFIG).regions = [c4WitnessRegion] := by
    rw [CursorUtils.generateAutoZoomRegions]
    have hclick : c4wEvents.filter (fun e =>
        decide (e.type = CursorEventType.click) &&
          (decide (e.button = some 1) || decide (e.button = none))) = c4wEvents := by
      norm_num [c4wEvents, List.filter_cons]
    simp only [hclick]
    simp only [c4wEvents] at hkfw
    norm_num [c4wEvents, CursorUtils.autoZoomStep, mathMin, clamp01, mathMax,
      CursorUtils.jsRound, CursorUtils.DEFAULT_AUTO_ZOOM_CONFIG, c4WitnessRegion, hkfw]
  have hmem : c4WitnessRegion ∈ (CursorUtils.generateAutoZoomRegions c4wEvents 2000 0
      CursorUtils.DEFAULT_AUTO_ZOOM_CONFIG).regions := by
    rw [hreg]
    exact List.mem_singleton.mpr rfl
  obtain ⟨c, hc, hct, hcb, hfoc, hstm, hen, himp⟩ :=
    c4_stationaryCursor_amended c4wEvents 2000 0 CursorUtils.DEFAULT_AUTO_ZOOM_CONFIG
      (by norm_num [CursorUtils.DEFAULT_AUTO_ZOOM_CONFIG]) c4WitnessRegion hmem
  refine ⟨by norm_num [CursorUtils.DEFAULT_AUTO_ZOOM_CONFIG], hmem, himp ?_⟩
  intro m hm hmt
  simp only [c4wEvents, List.mem_singleton] at hm
  subst hm
  exact absurd hmt (by decide)

/-!
## Claim C10 (auto-zoom regions are ordered and non-overlapping)
-/

/-- The JavaScript `Math.round` is monotone. -/
theorem jsRound_mono {x y : ℚ} (h : x ≤ y) :
    CursorUtils.jsRound x ≤ CursorUtils.jsRound y := by
  rw [CursorUtils.jsRound, CursorUtils.jsRound]
  exact_mod_cast Int.floor_le_floor (by linarith)

/-- The JavaScript `Math.round` commutes with adding the integer 300. -/
theorem jsRound_add_300 (x : ℚ) :
    CursorUtils.jsRound (x + 300) = CursorUtils.jsRound x + 300 := by
  rw [CursorUtils.jsRound, CursorUtils.jsRound]
  rw [show x + 300 + 1/2 = x + 1/2 + (300:ℤ) by push_cast; ring]
  rw [Int.floor_add_int]
  push_cast
  ring

/-- Loop invariant of the click fold in `generateAutoZoomRegions`: the
emitted regions are pairwise ordered and non-overlapping, every emitted
region ends no later than the rounded `lastZoomEndMs`, and every region is
at least 300 ms long. -/
def orderedInv (st : CursorUtils.GenState) : Prop :=
  List.Pairwise (fun r1 r2 : ZoomRegion => r1.startMs < r2.startMs ∧ r1.endMs ≤ r2.startMs)
      st.regions ∧
    ∀ r ∈ st.regions, r.endMs ≤ CursorUtils.jsRound st.lastZoomEndMs ∧
      r.startMs + 300 ≤ r.endMs

/-- One step of the click fold preserves `orderedInv` when
`minIntervalMs` is positive. -/
theorem autoZoomStep_ordered (events : List CursorEvent) (videoDur : ℚ)
    (cfg : CursorUtils.AutoZoomConfig) (hmin : 0 < cfg.minIntervalMs)
    (st : CursorUtils.GenState) (c : CursorEvent) (hst : orderedInv st) :
    orderedInv (CursorUtils.autoZoomStep events videoDur cfg st c) := by
  obtain ⟨hpw, hbound⟩ := hst
  rw [CursorUtils.autoZoomStep]
  split
  · exact ⟨hpw, hbound⟩
  · rename_i hdeb
    dsimp only
    split
    · exact ⟨hpw, hbound⟩
    · rename_i hshort
      have hdeb2 : st.lastZoomEndMs + cfg.minIntervalMs ≤ c.timestamp := by
        have := not_lt.mp hdeb
        linarith
      have hL : st.lastZoomEndMs < c.timestamp := by linarith
      have hshort2 : c.timestamp + 300 ≤ mathMin (c.timestamp + cfg.zoomDurationMs) videoDur := by
        have := not_lt.mp hshort
        linarith
      have hLend : st.lastZoomEndMs ≤ mathMin (c.timestamp + cfg.zoomDurationMs) videoDur := by
        linarith
      constructor
      · rw [List.pairwise_append]
        refine ⟨hpw, List.pairwise_singleton _ _, ?_⟩
        intro r hr r2 hr2
        rw [List.mem_singleton] at hr2
        subst hr2
        obtain ⟨hrend, hrlen⟩ := hbound r hr
        have h1 : CursorUtils.jsRound st.lastZoomEndMs ≤ CursorUtils.jsRound c.timestamp :=
          jsRound_mono hL.le
        dsimp only
        constructor
        · linarith
        · linarith
      · intro r hr
        rw [List.mem_append] at hr
        rcases hr with hr | hr
        · obtain ⟨hrend, hrlen⟩ := hbound r hr
          have h1 : CursorUtils.jsRound st.lastZoomEndMs ≤
              CursorUtils.jsRound (mathMin (c.timestamp + cfg.zoomDurationMs) videoDur) :=
            jsRound_mono hLend
          exact ⟨by dsimp only; linarith, hrlen⟩
        · rw [List.mem_singleton] at hr
          subst hr
          dsimp only
          refine ⟨le_refl _, ?_⟩
          rw [← jsRound_add_300]
          exact jsRound_mono hshort2

/-- Folding the click loop preserves `orderedInv`. -/
theorem autoZoom_foldl_ordered (events : List CursorEvent) (videoDur : ℚ)
    (cfg : CursorUtils.AutoZoomConfig) (hmin : 0 < cfg.minIntervalMs) :
    ∀ (cl : List CursorEvent) (st : CursorUtils.GenState), orderedInv st →
      orderedInv (cl.foldl (CursorUtils.autoZoomStep events videoDur cfg) st) := by
  intro cl
  induction cl with
  | nil => intro st hst; exact hst
  | cons c cl ih =>
    intro st hst
    rw [List.foldl_cons]
    exact ih _ (autoZoomStep_ordered events videoDur cfg hmin st c hst)

/-- Claim C10: for every event list sorted ascending by timestamp and
every configuration with positive `minIntervalMs`, the regions returned by
`generateAutoZoomRegions` are pairwise non-overlapping and appear in
strictly increasing `startMs` order, each region starting no earlier than
the previous region's `endMs`.  (The code maintains this regardless of the
sortedness hypothesis, which the claim includes.) -/
theorem c10_regionsOrdered (events : List CursorEvent) (videoDur : ℚ) (ctr : ℕ)
    (cfg : CursorUtils.AutoZoomConfig)
    (hsorted : List.Pairwise (fun a b : CursorEvent => a.timestamp ≤ b.timestamp) events)
    (hmin : 0 < cfg.minIntervalMs) :
    List.Pairwise (fun r1 r2 : ZoomRegion => r1.startMs < r2.startMs ∧ r1.endMs ≤ r2.startMs)
      (CursorUtils.generateAutoZoomRegions events videoDur ctr cfg).regions := by
  rw [CursorUtils.generateAutoZoomRegions]
  split
  · simp
  · refine (autoZoom_foldl_ordered events videoDur cfg hmin _ _ ?_).1
    exact ⟨List.Pairwise.nil, by intro r hr; simp at hr⟩

/-- Primary clicks at 0 and 3000 ms used by the C10 witness. -/
def c10wEvents : List CursorEvent :=
  [ { type := .click, timestamp := 0, normalizedX := 1/2, normalizedY := 1/2 }
  , { type := .click, timestamp := 3000, normalizedX := 1/2, normalizedY := 1/2 } ]

/-- Witness for claim C10: two clicks far enough apart give an ordered,
non-overlapping region list. -/
theorem c10_regionsOrdered_witness :
    List.Pairwise (fun a b : CursorEvent => a.timestamp ≤ b.timestamp) c10wEvents ∧
      0 < CursorUtils.DEFAULT_AUTO_ZOOM_CONFIG.minIntervalMs ∧
      List.Pairwise (fun r1 r2 : ZoomRegion => r1.startMs < r2.startMs ∧ r1.endMs ≤ r2.startMs)
        (CursorUtils.generateAutoZoomRegions c10wEvents 10000 0
          CursorUtils.DEFAULT_AUTO_ZOOM_CONFIG).regions := by
  have hsorted : List.Pairwise (fun a b : CursorEvent => a.timestamp ≤ b.timestamp)
      c10wEvents := by
    rw [c10wEvents]
    refine List.pairwise_cons.mpr ⟨?_, ?_⟩
    · intro b hb
      rw [List.mem_singleton] at hb
      subst hb
      norm_num
    · simp
  refine ⟨hsorted, by norm_num [CursorUtils.DEFAULT_AUTO_ZOOM_CONFIG], ?_⟩
  exact c10_regionsOrdered c10wEvents 10000 0 CursorUtils.DEFAULT_AUTO_ZOOM_CONFIG hsorted
    (by norm_num [CursorUtils.DEFAULT_AUTO_ZOOM_CONFIG])

/-!
## Claim C5 (click tolerance in the cursor overlay)
-/

/-- Events for the C5 counterexample: moves at 0 and 100 ms and a click at
150 ms; the query time 50 ms lies between the two moves, and the click at
150 ms is within the 300 ms tolerance of the query. -/
def c5Events : List CursorEvent :=
  [ { type := .move, timestamp := 0 }
  , { type := .move, timestamp := 100 }
  , { type := .click, timestamp := 150 } ]

/-- A single click event at 40 ms, used by the C5 witness. -/
def c5wClick : CursorEvent := { type := .click, timestamp := 40 }

/-- Accumulating a click into the scan of `getCursorPositionAtTime` is
permanent: once the click slot holds a value it holds one at the end. -/
theorem scanEvents_click_isSome : ∀ (l : List CursorEvent) (t : ℚ)
    (b : Option CursorEvent) (c : CursorEvent),
    (CursorOverlay.scanEvents l t b (some c)).2.2.isSome = true := by
  intro l
  induction l with
  | nil => intro t b c; rfl
  | cons e rest ih =>
    intro t b c
    simp only [CursorOverlay.scanEvents]
    split
    · split
      · exact ih t _ e
      · exact ih t _ c
    · split <;> rfl

/-- Once the scan of `getCursorPositionAtTime` has seen an event at or
before the query time, the before slot stays filled. -/
theorem scanEvents_before_isSome : ∀ (l : List CursorEvent) (t : ℚ)
    (b : CursorEvent) (c : Option CursorEvent),
    (CursorOverlay.scanEvents l t (some b) c).1.isSome = true := by
  intro l
  induction l with
  | nil => intro t b c; rfl
  | cons e rest ih =>
    intro t b c
    simp only [CursorOverlay.scanEvents]
    split
    · exact ih t e _
    · rfl

/-- If a click within tolerance occurs before the scan of
`getCursorPositionAtTime` breaks (every earlier event is at or before the
query time), the scan ends with the click slot filled and at least one of
the before/after slots filled. -/
theorem scanEvents_reaches_click : ∀ (pre : List CursorEvent) (e : CursorEvent)
    (post : List CursorEvent) (t : ℚ) (b c : Option CursorEvent),
    e.type = CursorEventType.click → mathAbs (e.timestamp - t) < 300 →
    (∀ x ∈ pre, x.timestamp ≤ t) →
    (CursorOverlay.scanEvents (pre ++ e :: post) t b c).2.2.isSome = true ∧
      ((CursorOverlay.scanEvents (pre ++ e :: post) t b c).1.isSome = true ∨
        (CursorOverlay.scanEvents (pre ++ e :: post) t b c).2.1.isSome = true) := by
  intro pre
  induction pre with
  | nil =>
    intro e post t b c htype habs _
    simp only [List.nil_append, CursorOverlay.scanEvents]
    have hA : e.type = CursorEventType.click ∧ mathAbs (e.timestamp - t) < 300 :=
      ⟨htype, habs⟩
    rw [if_pos hA]
    split
    · exact ⟨scanEvents_click_isSome post t (some e) e,
        Or.inl (scanEvents_before_isSome post t e (some e))⟩
    · exact ⟨rfl, Or.inr rfl⟩
  | cons x pre ih =>
    intro e post t b c htype habs hpre
    have hx : x.timestamp ≤ t := hpre x (List.mem_cons_self x pre)
    simp only [List.cons_append, CursorOverlay.scanEvents]
    rw [if_pos hx]
    exact ih e post t _ _ htype habs fun y hy => hpre y (List.mem_cons_of_mem x hy)

/-- Claim C5 as stated is false: in `c5Events` the click at 150 ms is
within the 300 ms tolerance of the query time 50 ms, yet
`getCursorPositionAtTime` reports `isClick = false`, because the scan
breaks at the first event after the query time (the move at 100 ms)
without ever examining the click. -/
theorem c5_clickTolerance_counterexample :
    (∃ e ∈ c5Events, e.type = CursorEventType.click ∧ mathAbs (e.timestamp - 50) < 300) ∧
      (CursorOverlay.getCursorPositionAtTime c5Events 50).map
        CursorOverlay.CursorPosition.isClick = some false := by
  constructor
  · refine ⟨{ type := .click, timestamp := 150 }, by simp [c5Events], rfl, ?_⟩
    norm_num [mathAbs]
  · norm_num [CursorOverlay.getCursorPositionAtTime, CursorOverlay.scanEvents, mathAbs,
      c5Events]
    decide

/-- Claim C5, amended: if the event list contains a click event within the
300 ms tolerance of `timeMs` that is preceded only by events with
timestamps at or before `timeMs` (so the scan reaches it before breaking
at the first event after `timeMs`), then the returned cursor position has
`isClick = true`, regardless of which pair of events brackets `timeMs`. -/
theorem c5_clickTolerance_amended (pre : List CursorEvent) (e : CursorEvent)
    (post : List CursorEvent) (timeMs : ℚ)
    (htype : e.type = CursorEventType.click)
    (habs : mathAbs (e.timestamp - timeMs) < 300)
    (hpre : ∀ x ∈ pre, x.timestamp ≤ timeMs) :
    (CursorOverlay.getCursorPositionAtTime (pre ++ e :: post) timeMs).map
      CursorOverlay.CursorPosition.isClick = some true := by
  obtain ⟨hc, hba⟩ := scanEvents_reaches_click pre e post timeMs none none htype habs hpre
  rw [CursorOverlay.getCursorPositionAtTime]
  rw [if_neg (by simp)]
  rcases hscan : CursorOverlay.scanEvents (pre ++ e :: post) timeMs none none
    with ⟨bv, av, cv⟩
  rw [hscan] at hc hba
  simp only at hc hba
  obtain ⟨cev, hcev⟩ := Option.isSome_iff_exists.mp hc
  subst hcev
  rcases bv with _ | bv <;> rcases av with _ | av
  · simp at hba
  · simp
  · simp
  · simp only []
    split <;> simp

/-- Witness for the amended claim C5: a single click at 40 ms queried at
50 ms yields `isClick = true`. -/
theorem c5_clickTolerance_witness :
    c5wClick.type = CursorEventType.click ∧ mathAbs (c5wClick.timestamp - 50) < 300 ∧
      (CursorOverlay.getCursorPositionAtTime [c5wClick] 50).map
        CursorOverlay.CursorPosition.isClick = some true := by
  refine ⟨rfl, by norm_num [c5wClick, mathAbs], ?_⟩
  have h := c5_clickTolerance_amended [] c5wClick [] 50 rfl
    (by norm_num [c5wClick, mathAbs]) (by simp)
  simpa using h

/-!
## Claim C9 (normalized coordinates stay in the unit square)
-/

/-- Claim C9: for every resolved display bounds rectangle with positive
width and height and every raw coordinate pair (also outside the
rectangle), the normalized coordinates produced by `normalizeCoordinates`
lie in `[0, 1]` in both components. -/
theorem c9_normalizeBounds (b : MouseTracker.DisplayBounds) (x y : ℚ)
    (hw : 0 < b.width) (hh : 0 < b.height) :
    0 ≤ (MouseTracker.normalizeCoordinates (some b) x y).1 ∧
      (MouseTracker.normalizeCoordinates (some b) x y).1 ≤ 1 ∧
      0 ≤ (MouseTracker.normalizeCoordinates (some b) x y).2 ∧
      (MouseTracker.normalizeCoordinates (some b) x y).2 ≤ 1 := by
  rw [MouseTracker.normalizeCoordinates]
  simp only [mathMax_eq, mathMin_eq]
  refine ⟨?_, ?_, ?_, ?_⟩
  · exact div_nonneg (by simp [sub_nonneg, le_max_iff]) hw.le
  · rw [div_le_one hw]
    have h1 : min x (b.x + b.width) ≤ b.x + b.width := min_le_right _ _
    have h2 : max b.x (min x (b.x + b.width)) ≤ b.x + b.width :=
      max_le (by linarith) h1
    linarith
  · exact div_nonneg (by simp [sub_nonneg, le_max_iff]) hh.le
  · rw [div_le_one hh]
    have h1 : min y (b.y + b.height) ≤ b.y + b.height := min_le_right _ _
    have h2 : max b.y (min y (b.y + b.height)) ≤ b.y + b.height :=
      max_le (by linarith) h1
    linarith

/-- Witness for claim C9 at the bounds rectangle `(0, 0, 100, 50)` and the
out-of-bounds raw point `(150, -3)`. -/
theorem c9_normalizeBounds_witness :
    0 < (MouseTracker.DisplayBounds.mk 0 0 100 50).width ∧
      0 < (MouseTracker.DisplayBounds.mk 0 0 100 50).height ∧
      (0 ≤ (MouseTracker.normalizeCoordinates (some ⟨0, 0, 100, 50⟩) 150 (-3)).1 ∧
        (MouseTracker.normalizeCoordinates (some ⟨0, 0, 100, 50⟩) 150 (-3)).1 ≤ 1 ∧
        0 ≤ (MouseTracker.normalizeCoordinates (some ⟨0, 0, 100, 50⟩) 150 (-3)).2 ∧
        (MouseTracker.normalizeCoordinates (some ⟨0, 0, 100, 50⟩) 150 (-3)).2 ≤ 1) :=
  ⟨by norm_num, by norm_num,
    c9_normalizeBounds ⟨0, 0, 100, 50⟩ 150 (-3) (by norm_num) (by norm_num)⟩

end Openscreen
